import Mathlib

/-!
Verification of the resource-group storage layer specification against the
`exists_at` native (`src/aptos-move/framework/src/natives/object.rs`) and the
spec's Group Codec / Group Store / Conflict Tracker components.

The native function is embedded shallowly from the Rust source.  Machine
integers are modelled as `Nat`; fallible Rust code returning
`PartialVMResult<T>` is modelled as `Except PartialVMError T`; a Rust
`assert!` failure (panic) is modelled by the dedicated `ExecOutcome.panics`
outcome, which carries no gas charge and no return value.
-/

/-! ## Types shared with the Move VM (embedded from the Rust source) -/

/-- `InternalGas` from `move_core_types::gas_algebra`: a plain quantity. -/
abbrev InternalGas := Nat

/-- Gas parameters of the `exists_at` native (`ExistsAtGasParameters`). -/
structure ExistsAtGasParameters where
  base_cost : InternalGas
  deriving DecidableEq

mutual

/-- `move_core_types::language_storage::TypeTag` (the constructors relevant
to `native_exists_at`: it only distinguishes `Struct` from everything else). -/
inductive TypeTag where
  | bool : TypeTag
  | u8 : TypeTag
  | u64 : TypeTag
  | u128 : TypeTag
  | address : TypeTag
  | signer : TypeTag
  | vector : TypeTag → TypeTag
  | struct_ : StructTag → TypeTag

/-- `move_core_types::language_storage::StructTag`: defining address, module
name, type name, and the ordered list of type-parameter tags. -/
inductive StructTag where
  | mk : Nat → String → String → List TypeTag → StructTag

end

/-- Move account address, an opaque fixed-width identifier. -/
abbrev AccountAddress := Nat

/-- The runtime `Value`s `native_exists_at` can receive or return. -/
inductive MoveValue where
  | bool (b : Bool)
  | u64 (n : Nat)
  | address (a : AccountAddress)
  deriving DecidableEq

/-- The `StatusCode`s reachable from `native_exists_at`. -/
inductive StatusCode where
  | VM_EXTENSION_ERROR
  | INTERNAL_TYPE_ERROR
  | UNKNOWN_INVARIANT_VIOLATION_ERROR
  deriving DecidableEq

/-- `move_binary_format::errors::PartialVMError`: a status code plus an
optional message. -/
structure PartialVMError where
  major_status : StatusCode
  message : Option String
  deriving DecidableEq

def PartialVMError.new (s : StatusCode) : PartialVMError := ⟨s, none⟩

def PartialVMError.with_message (e : PartialVMError) (m : String) : PartialVMError :=
  ⟨e.major_status, some m⟩

/-- `move_vm_types::natives::function::NativeResult`: either a successful
return of values, or a typed abort, each carrying the gas cost charged. -/
inductive NativeResult where
  | ok (cost : InternalGas) (ret : List MoveValue)
  | err (cost : InternalGas) (abort_code : Nat)
  deriving DecidableEq

/-- The gas cost carried by a `NativeResult`, whichever constructor. -/
def NativeResult.cost : NativeResult → InternalGas
  | .ok c _ => c
  | .err c _ => c

/-- A runtime `Type` (`move_vm_types::loaded_data::runtime_types::Type`) is
opaque to the native; only the context's `type_to_type_tag` interprets it. -/
structure MoveType where
  id : Nat
  deriving DecidableEq

/-- The handle returned by `NativeContext::get_resource`; its `.exists()`
call may itself fail, which we model as a stored `Except`. -/
structure GlobalValue where
  exists_result : Except String Bool

/-- The slice of `NativeContext` that `native_exists_at` uses: type-tag
resolution and resource lookup (the latter backed by the Group Store for
group members, opaque at this layer). -/
structure NativeContext where
  type_to_type_tag : MoveType → Except PartialVMError TypeTag
  get_resource : AccountAddress → StructTag → Except String GlobalValue

/-- Modelled from the spec: the abort code `NFE_EXPECTED_STRUCT_TYPE_TAG`
is declared in `natives/status.rs`, which is not under `src/`.  The claims
depend only on its identity as the typed failure for a non-struct type
argument, never on its numeric value. -/
def NFE_EXPECTED_STRUCT_TYPE_TAG : Nat := 1

deriving instance DecidableEq for Except

/-- Outcome of running a native: a Rust panic (failed `assert!`, which
charges no gas and returns nothing), or a `PartialVMResult<NativeResult>`. -/
inductive ExecOutcome where
  | panics : ExecOutcome
  | res (r : Except PartialVMError NativeResult)
  deriving DecidableEq

/-- The `pop_arg!(args, AccountAddress)` macro: pops one argument and casts
it to an address; popping from an empty deque or casting a non-address value
yields a `PartialVMError`. -/
def pop_arg_address (args : List MoveValue) :
    Except PartialVMError (AccountAddress × List MoveValue) :=
  match args with
  | [] => .error (PartialVMError.new .UNKNOWN_INVARIANT_VIOLATION_ERROR)
  | v :: rest =>
    match v with
    | .address a => .ok (a, rest)
    | _ => .error (PartialVMError.new .INTERNAL_TYPE_ERROR)

/-- Shallow embedding of `native_exists_at` from
`src/aptos-move/framework/src/natives/object.rs`.  The two `assert!`s on the
arities become the `panics` outcome; then the type argument is resolved, a
non-struct tag yields `NativeResult::err(base_cost, NFE_EXPECTED_STRUCT_TYPE_TAG)`,
and otherwise the address argument is popped and the context is asked whether
the resource exists, both fallible steps wrapped into `VM_EXTENSION_ERROR`. -/
def native_exists_at (gas_params : ExistsAtGasParameters) (context : NativeContext)
    (ty_args : List MoveType) (args : List MoveValue) : ExecOutcome :=
  match ty_args, args with
  | [ty0], [arg0] =>
    .res (do
      let type_tag ← context.type_to_type_tag ty0
      match type_tag with
      | TypeTag.struct_ struct_tag => do
        let pa ← pop_arg_address [arg0]
        let gv ← (context.get_resource pa.1 struct_tag).mapError
          (fun e => (PartialVMError.new .VM_EXTENSION_ERROR).with_message
            ("Failed to read resource. With error: " ++ e))
        let ex ← gv.exists_result.mapError
          (fun e => (PartialVMError.new .VM_EXTENSION_ERROR).with_message
            ("Failed to read resource. With error: " ++ e))
        pure (NativeResult.ok gas_params.base_cost [MoveValue.bool ex])
      | _ => pure (NativeResult.err gas_params.base_cost NFE_EXPECTED_STRUCT_TYPE_TAG))
  | _, _ => .panics

/-! ## Group Codec (§4.2, §6 of the spec)

The Group Codec, Group Store and Conflict Tracker of the specification are
code of this repository that is not under `src/` (only the `exists_at`
native and an end-to-end test that exercises them are).  They are therefore
modelled from the spec below. -/

/-- Modelled from the spec: a `MemberTag` (§3) is a `StructTag` used only
through its total, deterministic order (§4.1) and its canonical byte
serialization.  It is abstracted here as a fixed-width identifier (below
`2^32`, serialized big-endian on four bytes), which preserves exactly the
structure the codec uses: a totally ordered key with an injective
order-preserving byte encoding. -/
abbrev MemberTag := Nat

/-- Raw serialized resource bytes (each element a byte value). -/
abbrev Bytes := List Nat

/-- The raw bytes physically stored under a `GroupKey` (§3). -/
abbrev Blob := List Nat

/-- Modelled from the spec: a `MemberMap` (§3) is an ordered mapping from
`MemberTag` to raw bytes, represented as an association list kept sorted by
the tag order; well-formedness is a separate predicate (`WellFormedMap`). -/
abbrev MemberMap := List (MemberTag × Bytes)

/-- Four-byte big-endian serialization of a 32-bit quantity. -/
def toBytes4 (n : Nat) : List Nat :=
  [n / 16777216 % 256, n / 65536 % 256, n / 256 % 256, n % 256]

/-- Big-endian recomposition of four bytes. -/
def fromBytes4 (a b c d : Nat) : Nat := ((a * 256 + b) * 256 + c) * 256 + d

/-- Reads one four-byte big-endian quantity off the front of a stream. -/
def readU32 : List Nat → Option (Nat × List Nat)
  | a :: b :: c :: d :: rest => some (fromBytes4 a b c d, rest)
  | _ => none

/-- One serialized entry: `(MemberTag, byte-length, bytes)` with no padding
and no separator beyond the embedded length (§6). -/
def encodeEntry (e : MemberTag × Bytes) : List Nat :=
  toBytes4 e.1 ++ toBytes4 e.2.length ++ e.2

/-- The serialized entry sequence of a member map, in list order. -/
def encodeEntries : MemberMap → List Nat
  | [] => []
  | e :: rest => encodeEntry e ++ encodeEntries rest

/-- The non-strict tag order used for sorting entries. -/
def tagLE (a b : MemberTag × Bytes) : Prop := a.1 ≤ b.1

instance : DecidableRel tagLE := fun a b => Nat.decLe a.1 b.1

instance : IsTotal (MemberTag × Bytes) tagLE := ⟨fun a b => Nat.le_total a.1 b.1⟩

instance : IsTrans (MemberTag × Bytes) tagLE := ⟨fun _ _ _ => Nat.le_trans⟩

/-- Sorts entries by the `MemberTag` total order. -/
def sortEntries (M : MemberMap) : MemberMap := List.insertionSort tagLE M

/-- Modelled from the spec: `encode(MemberMap) -> Blob` (§4.2) serializes
the map as the sorted sequence of length-prefixed `(MemberTag, byte-length,
bytes)` entries; the sort makes the output independent of insertion order. -/
def encode (M : MemberMap) : Blob := encodeEntries (sortEntries M)

/-- Decode failure taxonomy of the codec (§7): a single fatal error. -/
inductive CodecError where
  | CorruptBlob
  deriving DecidableEq

/-- Whether a freshly parsed tag respects the strictly-increasing-tag rule
relative to the previously parsed tag (if any). -/
def tagOrdOK : Option MemberTag → MemberTag → Bool
  | none, _ => true
  | some p, t => decide (p < t)

/-- Modelled from the spec: the entry-parsing loop of `decode` (§4.2).  It
consumes the whole stream, failing with `CorruptBlob` on a truncated or
partial entry and on any tag that is not strictly greater than its
predecessor (which rejects duplicates and out-of-order entries).  `fuel`
only bounds the recursion; it is set to the stream length by `decode` and
every entry consumes at least eight bytes, so it never runs out on the
paths `decode` exercises. -/
def decodeEntriesAux (fuel : Nat) (prev : Option MemberTag) (s : List Nat) :
    Except CodecError MemberMap :=
  match s with
  | [] => .ok []
  | _ :: _ =>
    match fuel with
    | 0 => .error .CorruptBlob
    | fuel' + 1 =>
      match readU32 s with
      | none => .error .CorruptBlob
      | some (tag, s1) =>
        if tagOrdOK prev tag then
          match readU32 s1 with
          | none => .error .CorruptBlob
          | some (len, s2) =>
            if len ≤ s2.length then
              match decodeEntriesAux fuel' (some tag) (s2.drop len) with
              | .error e => .error e
              | .ok rest => .ok ((tag, s2.take len) :: rest)
            else .error .CorruptBlob
        else .error .CorruptBlob

/-- Modelled from the spec: `decode(Blob) -> MemberMap | CorruptBlob`
(§4.2): rejects any stream that is not a canonical encoding — truncation,
trailing partial entries, duplicate tags, out-of-order tags, or non-byte
content — rather than re-sorting or repairing it. -/
def decode (b : Blob) : Except CodecError MemberMap :=
  if b.all (fun x => decide (x < 256)) then decodeEntriesAux b.length none b
  else .error .CorruptBlob

/-- Well-formedness of a member map (§3 invariants): entries strictly
sorted by tag (hence each tag appears at most once), tags and lengths
within the fixed serialization width, and payloads made of bytes. -/
def WellFormedMap (M : MemberMap) : Prop :=
  List.Pairwise (fun a b => a.1 < b.1) M ∧
  ∀ e ∈ M, e.1 < 4294967296 ∧ e.2.length < 4294967296 ∧ ∀ x ∈ e.2, x < 256

instance (M : MemberMap) : Decidable (WellFormedMap M) := by
  unfold WellFormedMap; infer_instance

/-- A lower bound `prev` (if any) below every tag of a map. -/
def Below : Option MemberTag → MemberMap → Prop
  | none, _ => True
  | some p, M => ∀ e ∈ M, p < e.1

/-! ### Encoding is insertion-order independent (C8) -/

/-- Member lookup in a member map (first matching tag). -/
def lookupTag (t : MemberTag) : MemberMap → Option Bytes
  | [] => none
  | e :: rest => if e.1 = t then some e.2 else lookupTag t rest

/-- Each MemberTag appears at most once (§3 invariant), with no sortedness
requirement: the form in which a map may exist before canonicalization. -/
def NodupKeys (M : MemberMap) : Prop := (M.map Prod.fst).Nodup

instance (M : MemberMap) : Decidable (NodupKeys M) := by
  unfold NodupKeys; infer_instance

instance : IsAntisymm (MemberTag × Bytes) (fun a b => a.1 < b.1) :=
  ⟨fun _ _ h1 h2 => absurd h1 (Nat.lt_asymm h2)⟩

/-! ## Group Store (§4.3) -/

/-- Modelled from the spec: `set_member(key, member_tag, bytes)` (§4.3)
inserts or replaces the entry for `member_tag` in the decoded MemberMap,
keeping the map sorted by the MemberTag order. -/
def set_member (M : MemberMap) (t : MemberTag) (v : Bytes) : MemberMap :=
  match M with
  | [] => [(t, v)]
  | e :: rest =>
    if t < e.1 then (t, v) :: e :: rest
    else if t = e.1 then (t, v) :: rest
    else e :: set_member rest t v

/-- Modelled from the spec: `remove_member(key, member_tag) -> bool` (§4.3)
removes the entry if present and reports whether it was present. -/
def remove_member (M : MemberMap) (t : MemberTag) : MemberMap × Bool :=
  (M.filter (fun e => decide (e.1 ≠ t)), (lookupTag t M).isSome)

/-- Removing a sequence of members one by one. -/
def remove_all (M : MemberMap) (tags : List MemberTag) : MemberMap :=
  tags.foldl (fun acc t => (remove_member acc t).1) M

/-- Modelled from the spec: the commit path (§4.3) — a dirty group is
re-encoded and written, or the key is deleted entirely when the MemberMap
became empty (never stored as an empty Blob). -/
def commit_group (M : MemberMap) : Option Blob :=
  if M.isEmpty then none else some (encode M)

/-- Modelled from the spec: `exists_group(key) -> bool` (§4.3) — true iff a
Blob is present for the key. -/
def exists_group (stored : Option Blob) : Bool := stored.isSome

/-- Modelled from the spec: `get_member(key, member_tag)` (§4.3) read from
committed storage — an absent group yields an absent member, a present blob
is decoded (surfacing `CorruptBlob`) and the tag looked up in it. -/
def get_member_stored (stored : Option Blob) (t : MemberTag) :
    Except CodecError (Option Bytes) :=
  match stored with
  | none => .ok none
  | some b =>
    match decode b with
    | .error e => .error e
    | .ok M => .ok (lookupTag t M)

/-! ## Conflict Tracker (§4.4) -/

/-- A group storage key, opaque at this layer. -/
abbrev GroupKey := Nat

/-- Modelled from the spec: the per-transaction access record kept by the
Conflict Tracker (§4.4) — a member-level read-set and write-set of
`(GroupKey, MemberTag)` pairs plus a coarser whole-group read-set. -/
structure TxnAccess where
  member_reads : List (GroupKey × MemberTag)
  member_writes : List (GroupKey × MemberTag)
  group_reads : List GroupKey

/-- Modelled from the spec: the validation rule of §4.4 — two transactions
conflict iff (a) one's member write-set intersects the other's member
read-set, or (b) one's whole-group read-set covers a GroupKey of which the
other writes any member. -/
def conflict (t1 t2 : TxnAccess) : Bool :=
  t1.member_writes.any (fun p => decide (p ∈ t2.member_reads)) ||
  t2.member_writes.any (fun p => decide (p ∈ t1.member_reads)) ||
  t1.group_reads.any (fun g => t2.member_writes.any (fun p => decide (p.1 = g))) ||
  t2.group_reads.any (fun g => t1.member_writes.any (fun p => decide (p.1 = g)))

/-! ## Theorems -/

/-! ## Theorems about the `exists_at` native -/

/-- C1: for every call to the `exists_at` native with one type argument that
resolves to a `StructTag` and one address argument, the call succeeds and
returns exactly one boolean value, which is true iff a resource of that
struct type exists at that address (existence as answered by the context's
resource lookup, which for group members resolves via the Group Store). -/
theorem native_exists_at_returns_existence
    (gp : ExistsAtGasParameters) (ctx : NativeContext) (ty0 : MoveType)
    (a : AccountAddress) (stag : StructTag) (gv : GlobalValue) (ex : Bool)
    (hty : ctx.type_to_type_tag ty0 = .ok (TypeTag.struct_ stag))
    (hres : ctx.get_resource a stag = .ok gv)
    (hex : gv.exists_result = .ok ex) :
    native_exists_at gp ctx [ty0] [MoveValue.address a] =
      ExecOutcome.res (Except.ok (NativeResult.ok gp.base_cost [MoveValue.bool ex])) := by
  simp [native_exists_at, hty, pop_arg_address, hres, hex, Except.mapError,
    Bind.bind, Except.bind, Functor.map, Except.map, Pure.pure, Except.pure]

/-- Witness for C1 at a concrete context where the resource exists. -/
theorem native_exists_at_returns_existence_witness :
    native_exists_at ⟨7⟩
      { type_to_type_tag := fun _ => Except.ok (TypeTag.struct_ (StructTag.mk 1 "object" "ObjectCore" []))
        get_resource := fun _ _ => Except.ok ⟨Except.ok true⟩ }
      [⟨0⟩] [MoveValue.address 3] =
      ExecOutcome.res (Except.ok (NativeResult.ok 7 [MoveValue.bool true])) :=
  native_exists_at_returns_existence ⟨7⟩ _ ⟨0⟩ 3
    (StructTag.mk 1 "object" "ObjectCore" []) ⟨Except.ok true⟩ true rfl rfl rfl

/-- C2: when the type argument resolves to a non-struct `TypeTag`, the native
returns the typed abort `NFE_EXPECTED_STRUCT_TYPE_TAG` carrying the base gas
cost.  The result does not depend on the Group Store at all (the statement
quantifies over every `get_resource` implementation), and the typed failure
is distinct from any successful "member absent" style result. -/
theorem native_exists_at_nonstruct_typed_failure
    (gp : ExistsAtGasParameters) (ty0 : MoveType) (arg0 : MoveValue)
    (ttt : MoveType → Except PartialVMError TypeTag)
    (gr : AccountAddress → StructTag → Except String GlobalValue)
    (tag : TypeTag)
    (hty : ttt ty0 = .ok tag)
    (hns : ∀ s, tag ≠ TypeTag.struct_ s) :
    native_exists_at gp ⟨ttt, gr⟩ [ty0] [arg0] =
      ExecOutcome.res (Except.ok (NativeResult.err gp.base_cost NFE_EXPECTED_STRUCT_TYPE_TAG)) ∧
    (∀ c vs, NativeResult.err gp.base_cost NFE_EXPECTED_STRUCT_TYPE_TAG ≠ NativeResult.ok c vs) := by
  refine ⟨?_, fun c vs h => by cases h⟩
  cases tag with
  | struct_ s => exact absurd rfl (hns s)
  | _ => simp [native_exists_at, hty, Bind.bind, Except.bind, Pure.pure, Except.pure]

/-- Witness for C2 at a concrete non-struct type argument. -/
theorem native_exists_at_nonstruct_typed_failure_witness :
    native_exists_at ⟨7⟩
      ⟨fun _ => Except.ok TypeTag.u64, fun _ _ => Except.ok ⟨Except.ok true⟩⟩
      [⟨0⟩] [MoveValue.address 3] =
      ExecOutcome.res (Except.ok (NativeResult.err 7 NFE_EXPECTED_STRUCT_TYPE_TAG)) :=
  (native_exists_at_nonstruct_typed_failure ⟨7⟩ ⟨0⟩ (MoveValue.address 3)
    (fun _ => Except.ok TypeTag.u64) (fun _ _ => Except.ok ⟨Except.ok true⟩)
    TypeTag.u64 rfl (fun s h => by cases h)).1

/-- C3: every invocation of the native that terminates with a `NativeResult`
(whether a successful boolean return or the non-struct-type abort) charges
exactly the fixed base gas cost `gas_params.base_cost`. -/
theorem native_exists_at_charges_base_cost
    (gp : ExistsAtGasParameters) (ctx : NativeContext)
    (ty_args : List MoveType) (args : List MoveValue) (r : NativeResult)
    (h : native_exists_at gp ctx ty_args args = ExecOutcome.res (Except.ok r)) :
    r.cost = gp.base_cost := by
  match ty_args, args with
  | [], _ => simp [native_exists_at] at h
  | _ :: _ :: _, _ => simp [native_exists_at] at h
  | [ty0], [] => simp [native_exists_at] at h
  | [ty0], _ :: _ :: _ => simp [native_exists_at] at h
  | [ty0], [arg0] =>
    simp only [native_exists_at] at h
    match htt : ctx.type_to_type_tag ty0 with
    | .error e => simp [htt, Bind.bind, Except.bind, Pure.pure, Except.pure, Functor.map, Except.map] at h
    | .ok tag =>
      match tag with
      | TypeTag.struct_ stag =>
        match harg : pop_arg_address [arg0] with
        | .error e => simp [htt, harg, Bind.bind, Except.bind, Pure.pure, Except.pure, Functor.map, Except.map] at h
        | .ok pa =>
          match hres : ctx.get_resource pa.1 stag with
          | .error e => simp [htt, harg, hres, Except.mapError, Bind.bind, Except.bind, Pure.pure, Except.pure, Functor.map, Except.map] at h
          | .ok gv =>
            match hex : gv.exists_result with
            | .error e => simp [htt, harg, hres, hex, Except.mapError, Bind.bind, Except.bind, Pure.pure, Except.pure, Functor.map, Except.map] at h
            | .ok ex =>
              simp [htt, harg, hres, hex, Except.mapError, Bind.bind, Except.bind, Pure.pure, Except.pure, Functor.map, Except.map] at h
              simp [← h, NativeResult.cost]
      | TypeTag.bool => simp [htt, Bind.bind, Except.bind, Pure.pure, Except.pure, Functor.map, Except.map] at h; simp [← h, NativeResult.cost]
      | TypeTag.u8 => simp [htt, Bind.bind, Except.bind, Pure.pure, Except.pure, Functor.map, Except.map] at h; simp [← h, NativeResult.cost]
      | TypeTag.u64 => simp [htt, Bind.bind, Except.bind, Pure.pure, Except.pure, Functor.map, Except.map] at h; simp [← h, NativeResult.cost]
      | TypeTag.u128 => simp [htt, Bind.bind, Except.bind, Pure.pure, Except.pure, Functor.map, Except.map] at h; simp [← h, NativeResult.cost]
      | TypeTag.address => simp [htt, Bind.bind, Except.bind, Pure.pure, Except.pure, Functor.map, Except.map] at h; simp [← h, NativeResult.cost]
      | TypeTag.signer => simp [htt, Bind.bind, Except.bind, Pure.pure, Except.pure, Functor.map, Except.map] at h; simp [← h, NativeResult.cost]
      | TypeTag.vector t => simp [htt, Bind.bind, Except.bind, Pure.pure, Except.pure, Functor.map, Except.map] at h; simp [← h, NativeResult.cost]

/-- Witness for C3: the concrete run of C1's witness charges the base cost. -/
theorem native_exists_at_charges_base_cost_witness :
    (NativeResult.ok 7 [MoveValue.bool true]).cost = (⟨7⟩ : ExistsAtGasParameters).base_cost :=
  native_exists_at_charges_base_cost ⟨7⟩
    { type_to_type_tag := fun _ => Except.ok (TypeTag.struct_ (StructTag.mk 1 "object" "ObjectCore" []))
      get_resource := fun _ _ => Except.ok ⟨Except.ok true⟩ }
    [⟨0⟩] [MoveValue.address 3] (NativeResult.ok 7 [MoveValue.bool true]) rfl

/-- C10: the native's entry assertions require exactly one type argument and
exactly one value argument.  Every invocation satisfying this arity
precondition avoids the panic outcome, and every invocation violating it
panics unconditionally (the `panics` outcome carries no gas charge and no
return value). -/
theorem native_exists_at_arity
    (gp : ExistsAtGasParameters) (ctx : NativeContext)
    (ty_args : List MoveType) (args : List MoveValue) :
    ((ty_args.length = 1 ∧ args.length = 1) →
      native_exists_at gp ctx ty_args args ≠ ExecOutcome.panics) ∧
    (¬(ty_args.length = 1 ∧ args.length = 1) →
      native_exists_at gp ctx ty_args args = ExecOutcome.panics) := by
  constructor
  · rintro ⟨h1, h2⟩
    match ty_args, args with
    | [ty0], [arg0] => simp [native_exists_at]
    | [], _ => simp at h1
    | _ :: _ :: _, _ => simp at h1
    | [_], [] => simp at h2
    | [_], _ :: _ :: _ => simp at h2
  · intro h
    match ty_args, args with
    | [ty0], [arg0] => exact absurd ⟨rfl, rfl⟩ h
    | [], _ => simp [native_exists_at]
    | _ :: _ :: _, _ => simp [native_exists_at]
    | [_], [] => simp [native_exists_at]
    | [_], _ :: _ :: _ => simp [native_exists_at]

/-- Witness for C10: correct arity does not panic; zero type arguments do. -/
theorem native_exists_at_arity_witness :
    native_exists_at ⟨7⟩
      ⟨fun _ => Except.ok TypeTag.u64, fun _ _ => Except.ok ⟨Except.ok true⟩⟩
      [⟨0⟩] [MoveValue.address 3] ≠ ExecOutcome.panics ∧
    native_exists_at ⟨7⟩
      ⟨fun _ => Except.ok TypeTag.u64, fun _ _ => Except.ok ⟨Except.ok true⟩⟩
      [] [MoveValue.address 3] = ExecOutcome.panics :=
  ⟨(native_exists_at_arity ⟨7⟩ _ [⟨0⟩] [MoveValue.address 3]).1 (by simp),
   (native_exists_at_arity ⟨7⟩ _ [] [MoveValue.address 3]).2 (by simp)⟩

example : decode (encode [(1, [42]), (2, [])]) = .ok [(1, [42]), (2, [])] := by decide
example : decode [0, 0, 0, 1] = .error .CorruptBlob := by decide
example : decode (encodeEntries [(2, []), (1, [])]) = .error .CorruptBlob := by decide
example : decode (encodeEntries [(1, []), (1, [])]) = .error .CorruptBlob := by decide

/-! ### Codec lemmas -/

theorem readU32_encode (n : Nat) (h : n < 4294967296) (s : List Nat) :
    readU32 (toBytes4 n ++ s) = some (n, s) := by
  simp only [toBytes4, List.cons_append, List.nil_append, readU32, fromBytes4]
  have h2 : ((n / 16777216 % 256 * 256 + n / 65536 % 256) * 256 + n / 256 % 256) * 256
      + n % 256 = n := by omega
  rw [h2]

theorem encodeEntries_cons (e : MemberTag × Bytes) (rest : MemberMap) :
    encodeEntries (e :: rest) =
      toBytes4 e.1 ++ (toBytes4 e.2.length ++ (e.2 ++ encodeEntries rest)) := by
  simp [encodeEntries, encodeEntry, List.append_assoc]

theorem readU32_cons (a b c d : Nat) (s : List Nat) :
    readU32 (a :: b :: c :: d :: s) = some (fromBytes4 a b c d, s) := rfl

theorem decodeEntriesAux_encodeEntry (fuel' : Nat) (prev : Option MemberTag)
    (t : Nat) (bs : List Nat) (tail : List Nat)
    (ht : t < 4294967296) (hbl : bs.length < 4294967296) :
    decodeEntriesAux (fuel' + 1) prev (toBytes4 t ++ (toBytes4 bs.length ++ (bs ++ tail))) =
      if tagOrdOK prev t then
        match decodeEntriesAux fuel' (some t) tail with
        | .error e => .error e
        | .ok rest => .ok ((t, bs) :: rest)
      else .error .CorruptBlob := by
  have hs : toBytes4 t ++ (toBytes4 bs.length ++ (bs ++ tail)) =
      (t / 16777216 % 256) :: (t / 65536 % 256) :: (t / 256 % 256) :: (t % 256) ::
        (toBytes4 bs.length ++ (bs ++ tail)) := by
    simp [toBytes4]
  have htag : fromBytes4 (t / 16777216 % 256) (t / 65536 % 256) (t / 256 % 256) (t % 256) = t := by
    simp only [fromBytes4]; omega
  rw [hs]
  simp only [decodeEntriesAux, readU32_cons, htag]
  rw [readU32_encode bs.length hbl (bs ++ tail)]
  simp only [List.length_append]
  rw [if_pos (Nat.le_add_right bs.length tail.length)]
  rw [List.take_left bs tail, List.drop_left bs tail]

theorem decodeEntriesAux_complete (M : MemberMap) :
    ∀ (fuel : Nat) (prev : Option MemberTag),
    WellFormedMap M → (encodeEntries M).length ≤ fuel → Below prev M →
    decodeEntriesAux fuel prev (encodeEntries M) = .ok M := by
  induction M with
  | nil => intro fuel prev _ _ _; simp [encodeEntries, decodeEntriesAux]
  | cons e rest ih =>
    intro fuel prev hwf hfuel hb
    obtain ⟨t, bs⟩ := e
    have hlen : (encodeEntries ((t, bs) :: rest)).length
        = 8 + bs.length + (encodeEntries rest).length := by
      simp [encodeEntries, encodeEntry, toBytes4]
      omega
    match fuel with
    | 0 => rw [hlen] at hfuel; omega
    | fuel' + 1 =>
      have ht : t < 4294967296 := (hwf.2 (t, bs) (by simp)).1
      have hbl : bs.length < 4294967296 := (hwf.2 (t, bs) (by simp)).2.1
      rw [encodeEntries_cons, decodeEntriesAux_encodeEntry fuel' prev t bs _ ht hbl]
      have hord : tagOrdOK prev t = true := by
        match prev with
        | none => rfl
        | some p => exact decide_eq_true (hb (t, bs) (by simp))
      rw [if_pos hord]
      have hwfr : WellFormedMap rest :=
        ⟨hwf.1.of_cons, fun e he => hwf.2 e (by simp [he])⟩
      have hfr : (encodeEntries rest).length ≤ fuel' := by rw [hlen] at hfuel; omega
      have hbr : Below (some t) rest := by
        intro e he
        exact (List.pairwise_cons.mp hwf.1).1 e he
      rw [ih fuel' (some t) hwfr hfr hbr]

theorem toBytes4_bytes (n : Nat) : ∀ x ∈ toBytes4 n, x < 256 := by
  simp only [toBytes4, List.mem_cons, List.not_mem_nil, or_false]
  intro x hx
  rcases hx with h | h | h | h <;> omega

theorem encodeEntries_bytes (M : MemberMap)
    (h : ∀ e ∈ M, e.1 < 4294967296 ∧ e.2.length < 4294967296 ∧ ∀ x ∈ e.2, x < 256) :
    ∀ x ∈ encodeEntries M, x < 256 := by
  induction M with
  | nil => simp [encodeEntries]
  | cons e rest ih =>
    intro x hx
    rw [encodeEntries_cons] at hx
    simp only [List.mem_append] at hx
    rcases hx with h1 | h2 | h3 | h4
    · exact toBytes4_bytes e.1 x h1
    · exact toBytes4_bytes e.2.length x h2
    · exact (h e (by simp)).2.2 x h3
    · exact ih (fun e2 he2 => h e2 (by simp [he2])) x h4

theorem below_nil (prev : Option MemberTag) : Below prev [] := by
  cases prev <;> simp [Below]

theorem sortEntries_eq_self (M : MemberMap)
    (h : List.Pairwise (fun a b => a.1 < b.1) M) : sortEntries M = M :=
  List.Sorted.insertionSort_eq (List.Pairwise.imp (fun hab => Nat.le_of_lt hab) h)

theorem encode_all_bytes (M : MemberMap) (hwf : WellFormedMap M) :
    (encode M).all (fun x => decide (x < 256)) = true := by
  rw [List.all_eq_true]
  intro x hx
  rw [encode, sortEntries_eq_self M hwf.1] at hx
  exact decide_eq_true (encodeEntries_bytes M hwf.2 x hx)

/-- Round-trip helper: decoding the encoding of a well-formed map gives it
back unchanged. -/
theorem decode_encode_eq (M : MemberMap) (hwf : WellFormedMap M) :
    decode (encode M) = .ok M := by
  rw [decode, if_pos (encode_all_bytes M hwf)]
  rw [encode, sortEntries_eq_self M hwf.1]
  exact decodeEntriesAux_complete M _ none hwf (Nat.le_refl _) trivial

theorem readU32_sound (s : List Nat) (v : Nat) (r : List Nat)
    (hb : ∀ x ∈ s, x < 256) (h : readU32 s = some (v, r)) :
    s = toBytes4 v ++ r ∧ v < 4294967296 := by
  match s with
  | [] => simp [readU32] at h
  | [a] => simp [readU32] at h
  | [a, b] => simp [readU32] at h
  | [a, b, c] => simp [readU32] at h
  | a :: b :: c :: d :: s1 =>
    simp only [readU32, Option.some.injEq, Prod.mk.injEq] at h
    obtain ⟨hv, hr⟩ := h
    have ha : a < 256 := hb a (by simp)
    have hb2 : b < 256 := hb b (by simp)
    have hc : c < 256 := hb c (by simp)
    have hd : d < 256 := hb d (by simp)
    subst hr
    have hv2 : v < 4294967296 := by rw [← hv]; simp only [fromBytes4]; omega
    have ht : toBytes4 v = [a, b, c, d] := by
      rw [← hv]
      simp only [toBytes4, fromBytes4, List.cons.injEq, and_true]
      omega
    rw [ht]
    exact ⟨rfl, hv2⟩

theorem tagOrdOK_below (prev : Option MemberTag) (t : Nat) (b : Bytes)
    (h : tagOrdOK prev t = true) (M : MemberMap) (hM : ∀ e ∈ M, t < e.1) :
    Below prev ((t, b) :: M) := by
  cases prev with
  | none => exact trivial
  | some p =>
    have hp : p < t := of_decide_eq_true h
    intro e he
    rcases List.mem_cons.mp he with h1 | h2
    · rw [h1]; exact hp
    · exact Nat.lt_trans hp (hM e h2)

theorem decodeEntriesAux_sound (fuel : Nat) :
    ∀ (prev : Option MemberTag) (s : List Nat) (M : MemberMap),
    (∀ x ∈ s, x < 256) →
    decodeEntriesAux fuel prev s = .ok M →
    encodeEntries M = s ∧ WellFormedMap M ∧ Below prev M := by
  induction fuel with
  | zero =>
    intro prev s M hbytes h
    match s with
    | [] =>
      simp only [decodeEntriesAux, Except.ok.injEq] at h
      subst h
      exact ⟨rfl, ⟨List.Pairwise.nil, by simp⟩, below_nil prev⟩
    | _ :: _ => simp [decodeEntriesAux] at h
  | succ fuel ih =>
    intro prev s M hbytes h
    match s with
    | [] =>
      simp only [decodeEntriesAux, Except.ok.injEq] at h
      subst h
      exact ⟨rfl, ⟨List.Pairwise.nil, by simp⟩, below_nil prev⟩
    | [a] => simp [decodeEntriesAux, readU32] at h
    | [a, b] => simp [decodeEntriesAux, readU32] at h
    | [a, b, c] => simp [decodeEntriesAux, readU32] at h
    | a :: b :: c :: d :: s1 =>
      rw [decodeEntriesAux.eq_def] at h
      simp only [readU32_cons] at h
      by_cases hord : tagOrdOK prev (fromBytes4 a b c d) = true
      case neg => rw [if_neg hord] at h; cases h
      rw [if_pos hord] at h
      cases hr : readU32 s1 with
      | none => rw [hr] at h; cases h
      | some p =>
        obtain ⟨len, s2⟩ := p
        rw [hr] at h
        dsimp only at h
        have hs1bytes : ∀ x ∈ s1, x < 256 := fun x hx => hbytes x (by simp [hx])
        obtain ⟨hs1, hlen⟩ := readU32_sound s1 len s2 hs1bytes hr
        have hs2bytes : ∀ x ∈ s2, x < 256 := by
          intro x hx
          exact hs1bytes x (by rw [hs1]; simp [hx])
        by_cases hle : len ≤ s2.length
        case neg => rw [if_neg hle] at h; cases h
        rw [if_pos hle] at h
        cases haux : decodeEntriesAux fuel (some (fromBytes4 a b c d)) (s2.drop len) with
        | error e => rw [haux] at h; cases h
        | ok rest =>
          rw [haux] at h
          simp only [Except.ok.injEq] at h
          subst h
          have hdropbytes : ∀ x ∈ s2.drop len, x < 256 :=
            fun x hx => hs2bytes x (List.drop_subset len s2 hx)
          obtain ⟨henc, hwfr, hbel⟩ :=
            ih (some (fromBytes4 a b c d)) (s2.drop len) rest hdropbytes haux
          have htaglt : fromBytes4 a b c d < 4294967296 := by
            have ha : a < 256 := hbytes a (by simp)
            have hb2 : b < 256 := hbytes b (by simp)
            have hc : c < 256 := hbytes c (by simp)
            have hd : d < 256 := hbytes d (by simp)
            simp only [fromBytes4]; omega
          have htb : toBytes4 (fromBytes4 a b c d) = [a, b, c, d] := by
            have ha : a < 256 := hbytes a (by simp)
            have hb2 : b < 256 := hbytes b (by simp)
            have hc : c < 256 := hbytes c (by simp)
            have hd : d < 256 := hbytes d (by simp)
            simp only [toBytes4, fromBytes4, List.cons.injEq, and_true]
            omega
          have htake_len : (s2.take len).length = len := by
            rw [List.length_take]
            omega
          have hbelow_rest : ∀ e ∈ rest, fromBytes4 a b c d < e.1 := hbel
          refine ⟨?_, ⟨?_, ?_⟩, ?_⟩
          · rw [encodeEntries_cons]
            simp only
            rw [htake_len, htb, henc, List.take_append_drop, hs1]
            rfl
          · exact List.Pairwise.cons hbelow_rest hwfr.1
          · intro e he
            rcases List.mem_cons.mp he with h1 | h2
            · subst h1
              refine ⟨htaglt, ?_, ?_⟩
              · rw [htake_len]; exact hlen
              · intro x hx
                exact hs2bytes x (List.take_subset len s2 hx)
            · exact hwfr.2 e h2
          · exact tagOrdOK_below prev (fromBytes4 a b c d) (s2.take len) hord rest hbelow_rest

/-- C4: for every MemberMap whose entries are strictly sorted by the
MemberTag total order (hence each MemberTag appears at most once) and whose
tags, lengths and payload bytes fit the fixed serialization widths, decoding
the blob produced by encoding the map yields the map again:
`decode (encode M) = .ok M`. -/
theorem member_map_roundtrip (M : MemberMap) (hwf : WellFormedMap M) :
    decode (encode M) = .ok M := decode_encode_eq M hwf

/-- Witness for C4 on a concrete two-member map. -/
theorem member_map_roundtrip_witness :
    WellFormedMap [(1, [42]), (2, [])] ∧
      decode (encode [(1, [42]), (2, [])]) = .ok [(1, [42]), (2, [])] :=
  ⟨by decide, member_map_roundtrip [(1, [42]), (2, [])] (by decide)⟩

/-- C5: decoding is canonical.  A successful decode only ever returns a
well-formed (strictly tag-sorted, duplicate-free) map whose canonical
encoding is byte-identical to the input blob; and a blob decodes to
`CorruptBlob` exactly when it is not such a canonical encoding — which
covers every truncated stream, trailing partial entry, duplicate MemberTag
and out-of-order blob.  Non-canonical encodings are rejected, never
re-sorted or repaired. -/
theorem decode_canonical (b : Blob) :
    (∀ M, decode b = .ok M → WellFormedMap M ∧ b = encode M) ∧
    (decode b = .error .CorruptBlob ↔ ¬∃ M, WellFormedMap M ∧ b = encode M) := by
  have hp1 : ∀ M, decode b = .ok M → WellFormedMap M ∧ b = encode M := by
    intro M h
    rw [decode] at h
    by_cases hall : b.all (fun x => decide (x < 256)) = true
    · rw [if_pos hall] at h
      have hbytes : ∀ x ∈ b, x < 256 := by
        intro x hx
        exact of_decide_eq_true (List.all_eq_true.mp hall x hx)
      obtain ⟨henc, hwf, _⟩ := decodeEntriesAux_sound b.length none b M hbytes h
      refine ⟨hwf, ?_⟩
      rw [encode, sortEntries_eq_self M hwf.1, henc]
    · rw [if_neg hall] at h; cases h
  refine ⟨hp1, ?_, ?_⟩
  · intro herr hex
    obtain ⟨M, hwf, hb⟩ := hex
    rw [hb, decode_encode_eq M hwf] at herr
    cases herr
  · intro hno
    cases hd : decode b with
    | ok M => exact absurd ⟨M, (hp1 M hd).1, (hp1 M hd).2⟩ hno
    | error e => cases e; rfl

/-- Witness for C5: a four-byte blob (a bare tag with no length and no
payload: a trailing partial entry) is the canonical encoding of no map. -/
theorem decode_canonical_witness :
    ¬∃ M, WellFormedMap M ∧ ([0, 0, 0, 1] : Blob) = encode M :=
  (decode_canonical [0, 0, 0, 1]).2.mp rfl

theorem lookupTag_some_mem (t : MemberTag) (v : Bytes) (M : MemberMap)
    (h : lookupTag t M = some v) : (t, v) ∈ M := by
  induction M with
  | nil => cases h
  | cons e rest ih =>
    rw [lookupTag] at h
    by_cases he : e.1 = t
    · rw [if_pos he] at h
      simp only [Option.some.injEq] at h
      obtain ⟨e1, e2⟩ := e
      simp only at he h
      rw [← he, ← h]
      exact List.mem_cons_self (e1, e2) rest
    · rw [if_neg he] at h
      exact List.mem_cons_of_mem e (ih h)

theorem mem_lookupTag (t : MemberTag) (v : Bytes) (M : MemberMap)
    (hnd : NodupKeys M) (h : (t, v) ∈ M) : lookupTag t M = some v := by
  induction M with
  | nil => cases h
  | cons e rest ih =>
    rcases List.mem_cons.mp h with h1 | h2
    · rw [lookupTag, ← h1]
      simp
    · have hne : e.1 ≠ t := by
        intro hc
        have hmem : t ∈ rest.map Prod.fst := List.mem_map_of_mem Prod.fst h2
        have : e.1 ∉ rest.map Prod.fst := (List.nodup_cons.mp hnd).1
        rw [hc] at this
        exact this hmem
      rw [lookupTag, if_neg hne]
      exact ih (List.nodup_cons.mp hnd).2 h2

theorem pairwise_lt_of_le_nodup (l : MemberMap)
    (hle : List.Pairwise tagLE l) (hnd : NodupKeys l) :
    List.Pairwise (fun a b => a.1 < b.1) l := by
  have hne : List.Pairwise (fun a b : MemberTag × Bytes => a.1 ≠ b.1) l :=
    List.pairwise_map.mp hnd
  exact (hle.and hne).imp (fun h => Nat.lt_of_le_of_ne h.1 h.2)

theorem sortEntries_perm_eq (M1 M2 : MemberMap) (hp : M1.Perm M2)
    (h1 : NodupKeys M1) : sortEntries M1 = sortEntries M2 := by
  have hperm : (sortEntries M1).Perm (sortEntries M2) :=
    ((List.perm_insertionSort tagLE M1).trans hp).trans
      (List.perm_insertionSort tagLE M2).symm
  have hnd1 : NodupKeys (sortEntries M1) :=
    (List.Perm.nodup_iff ((List.perm_insertionSort tagLE M1).map Prod.fst)).mpr h1
  have hnd2 : NodupKeys (sortEntries M2) :=
    (List.Perm.nodup_iff (hperm.map Prod.fst)).mp hnd1
  exact List.eq_of_perm_of_sorted hperm
    (pairwise_lt_of_le_nodup _ (List.sorted_insertionSort tagLE M1) hnd1)
    (pairwise_lt_of_le_nodup _ (List.sorted_insertionSort tagLE M2) hnd2)

/-- C8: encode is a pure, deterministic function of the map's contents: two
duplicate-free MemberMaps that are equal as tag-to-bytes mappings — whatever
their insertion order — encode to byte-identical blobs (and re-encoding an
unchanged map is byte-identical by definitional purity of `encode`). -/
theorem encode_respects_contents (M1 M2 : MemberMap)
    (h1 : NodupKeys M1) (h2 : NodupKeys M2)
    (hl : ∀ t, lookupTag t M1 = lookupTag t M2) :
    encode M1 = encode M2 := by
  have hmem : ∀ a : MemberTag × Bytes, a ∈ M1 ↔ a ∈ M2 := by
    intro a
    constructor
    · intro ha
      apply lookupTag_some_mem a.1 a.2
      rw [← hl a.1]
      exact mem_lookupTag a.1 a.2 M1 h1 ha
    · intro ha
      apply lookupTag_some_mem a.1 a.2
      rw [hl a.1]
      exact mem_lookupTag a.1 a.2 M2 h2 ha
  have hp : M1.Perm M2 :=
    (List.perm_ext_iff_of_nodup (List.Nodup.of_map Prod.fst h1)
      (List.Nodup.of_map Prod.fst h2)).mpr hmem
  rw [encode, encode, sortEntries_perm_eq M1 M2 hp h1]

/-- Witness for C8: the same two bindings listed in either order. -/
theorem encode_respects_contents_witness :
    encode [(2, [5]), (1, [9])] = encode [(1, [9]), (2, [5])] :=
  encode_respects_contents [(2, [5]), (1, [9])] [(1, [9]), (2, [5])]
    (by decide) (by decide)
    (by
      intro t
      by_cases h1 : (1 : Nat) = t <;> by_cases h2 : (2 : Nat) = t <;>
        simp [lookupTag, h1, h2] <;> omega)

theorem remove_all_covering (tags : List MemberTag) :
    ∀ M : MemberMap, (∀ e ∈ M, e.1 ∈ tags) → remove_all M tags = [] := by
  induction tags with
  | nil =>
    intro M h
    match M with
    | [] => rfl
    | e :: rest => exact absurd (h e (by simp)) (List.not_mem_nil e.1)
  | cons t ts ih =>
    intro M h
    have hstep : remove_all M (t :: ts)
        = remove_all (M.filter (fun e => decide (e.1 ≠ t))) ts := rfl
    rw [hstep]
    apply ih
    intro e he
    have hmem : e ∈ M := (List.mem_filter.mp he).1
    have hne : e.1 ≠ t := of_decide_eq_true (List.mem_filter.mp he).2
    rcases List.mem_cons.mp (h e hmem) with h1 | h2
    · exact absurd h1 hne
    · exact h2

/-- C6: removing every member of a group empties its MemberMap, and the
commit path then deletes the storage key entirely rather than storing an
empty Blob — `exists_group` is false and `get_member` is absent for every
tag; conversely, any blob that commit does store decodes to a non-empty
MemberMap. -/
theorem group_delete_complete (M : MemberMap) (hwf : WellFormedMap M) :
    remove_all M (M.map Prod.fst) = [] ∧
    commit_group (remove_all M (M.map Prod.fst)) = none ∧
    exists_group (commit_group (remove_all M (M.map Prod.fst))) = false ∧
    (∀ t, get_member_stored (commit_group (remove_all M (M.map Prod.fst))) t = .ok none) ∧
    (∀ b, commit_group M = some b → decode b = .ok M ∧ M ≠ []) := by
  have hempty : remove_all M (M.map Prod.fst) = [] :=
    remove_all_covering (M.map Prod.fst) M
      (fun e he => List.mem_map_of_mem Prod.fst he)
  refine ⟨hempty, ?_, ?_, ?_, ?_⟩
  · rw [hempty]; rfl
  · rw [hempty]; rfl
  · intro t; rw [hempty]; rfl
  · intro b hb
    rw [commit_group] at hb
    by_cases hM : M.isEmpty = true
    · rw [if_pos hM] at hb; cases hb
    · rw [if_neg hM] at hb
      simp only [Option.some.injEq] at hb
      refine ⟨?_, ?_⟩
      · rw [← hb]; exact decode_encode_eq M hwf
      · intro hnil
        rw [hnil] at hM
        exact hM rfl

/-- Witness for C6 on a concrete one-member group. -/
theorem group_delete_complete_witness :
    remove_all [(1, [42])] ([(1, [42])].map Prod.fst) = [] ∧
    commit_group (remove_all [(1, [42])] ([(1, [42])].map Prod.fst)) = none ∧
    exists_group (commit_group (remove_all [(1, [42])] ([(1, [42])].map Prod.fst))) = false ∧
    (∀ t, get_member_stored
      (commit_group (remove_all [(1, [42])] ([(1, [42])].map Prod.fst))) t = .ok none) ∧
    (∀ b, commit_group [(1, [42])] = some b → decode b = .ok [(1, [42])] ∧ [(1, [42])] ≠ []) :=
  group_delete_complete [(1, [42])] (by decide)

theorem set_member_ne_nil (M : MemberMap) (t : MemberTag) (v : Bytes) :
    set_member M t v ≠ [] := by
  match M with
  | [] => simp [set_member]
  | e :: rest =>
    rw [set_member]
    by_cases h1 : t < e.1
    · rw [if_pos h1]; simp
    · rw [if_neg h1]
      by_cases h2 : t = e.1
      · rw [if_pos h2]; simp
      · rw [if_neg h2]; simp

theorem lookupTag_set_member_self (M : MemberMap) (t : MemberTag) (v : Bytes) :
    lookupTag t (set_member M t v) = some v := by
  induction M with
  | nil => simp [set_member, lookupTag]
  | cons e rest ih =>
    rw [set_member]
    by_cases h1 : t < e.1
    · rw [if_pos h1]; simp [lookupTag]
    · rw [if_neg h1]
      by_cases h2 : t = e.1
      · rw [if_pos h2]; simp [lookupTag]
      · rw [if_neg h2]
        have hne : e.1 ≠ t := fun hc => h2 hc.symm
        rw [lookupTag, if_neg hne]
        exact ih

theorem lookupTag_set_member_other (M : MemberMap) (t t2 : MemberTag) (v : Bytes)
    (hne : t2 ≠ t) : lookupTag t2 (set_member M t v) = lookupTag t2 M := by
  induction M with
  | nil =>
    have h1 : ¬(t = t2) := fun h => hne h.symm
    simp [set_member, lookupTag, h1]
  | cons e rest ih =>
    rw [set_member]
    by_cases h1 : t < e.1
    · rw [if_pos h1, lookupTag, if_neg (fun h => hne h.symm)]
    · rw [if_neg h1]
      by_cases h2 : t = e.1
      · rw [if_pos h2, lookupTag, if_neg (fun h => hne h.symm), lookupTag,
          if_neg (fun h : e.1 = t2 => hne (h2.trans h).symm)]
      · rw [if_neg h2, lookupTag, lookupTag]
        by_cases h3 : e.1 = t2
        · rw [if_pos h3, if_pos h3]
        · rw [if_neg h3, if_neg h3]
          exact ih

theorem mem_set_member (M : MemberMap) (t : MemberTag) (v : Bytes) :
    ∀ e2 ∈ set_member M t v, e2 = (t, v) ∨ e2 ∈ M := by
  induction M with
  | nil => simp [set_member]
  | cons e rest ih =>
    intro e2 he2
    rw [set_member] at he2
    by_cases h1 : t < e.1
    · rw [if_pos h1] at he2
      rcases List.mem_cons.mp he2 with h | h
      · exact Or.inl h
      · exact Or.inr h
    · rw [if_neg h1] at he2
      by_cases h2 : t = e.1
      · rw [if_pos h2] at he2
        rcases List.mem_cons.mp he2 with h | h
        · exact Or.inl h
        · exact Or.inr (List.mem_cons_of_mem e h)
      · rw [if_neg h2] at he2
        rcases List.mem_cons.mp he2 with h | h
        · exact Or.inr (by rw [h]; exact List.mem_cons_self e rest)
        · rcases ih e2 h with h4 | h4
          · exact Or.inl h4
          · exact Or.inr (List.mem_cons_of_mem e h4)

theorem set_member_pairwise (M : MemberMap) (t : MemberTag) (v : Bytes)
    (hpw : List.Pairwise (fun a b => a.1 < b.1) M) :
    List.Pairwise (fun a b : MemberTag × Bytes => a.1 < b.1) (set_member M t v) := by
  induction M with
  | nil => simp [set_member]
  | cons e rest ih =>
    obtain ⟨hhead, htail⟩ := List.pairwise_cons.mp hpw
    rw [set_member]
    by_cases h1 : t < e.1
    · rw [if_pos h1]
      refine List.Pairwise.cons ?_ hpw
      intro e2 he2
      rcases List.mem_cons.mp he2 with h | h
      · rw [h]; exact h1
      · exact Nat.lt_trans h1 (hhead e2 h)
    · rw [if_neg h1]
      by_cases h2 : t = e.1
      · rw [if_pos h2]
        refine List.Pairwise.cons ?_ htail
        intro e2 he2
        rw [h2]
        exact hhead e2 he2
      · rw [if_neg h2]
        have het : e.1 < t :=
          Nat.lt_of_le_of_ne (Nat.not_lt.mp h1) (fun hc => h2 hc.symm)
        refine List.Pairwise.cons ?_ (ih htail)
        intro e2 he2
        rcases mem_set_member rest t v e2 he2 with h | h
        · rw [h]; exact het
        · exact hhead e2 h

theorem set_member_wf (M : MemberMap) (t : MemberTag) (v : Bytes)
    (hwf : WellFormedMap M) (ht : t < 4294967296)
    (hvl : v.length < 4294967296) (hvb : ∀ x ∈ v, x < 256) :
    WellFormedMap (set_member M t v) := by
  refine ⟨set_member_pairwise M t v hwf.1, ?_⟩
  intro e2 he2
  rcases mem_set_member M t v e2 he2 with h | h
  · rw [h]; exact ⟨ht, hvl, hvb⟩
  · exact hwf.2 e2 h

/-- C7: member isolation.  For a group holding members `A` and `B`, running
`set_member` on `A` and committing leaves `B`'s stored bytes byte-identical
and makes `A`'s stored bytes equal the newly written value; at the map level
every tag other than `A` reads back exactly as before. -/
theorem member_isolation (M : MemberMap) (A B : MemberTag)
    (bval : Bytes) (new : Bytes)
    (hwf : WellFormedMap M) (hBA : B ≠ A)
    (hA : ∃ aval, lookupTag A M = some aval)
    (hB : lookupTag B M = some bval)
    (hnl : new.length < 4294967296) (hnb : ∀ x ∈ new, x < 256) :
    get_member_stored (commit_group (set_member M A new)) A = .ok (some new) ∧
    get_member_stored (commit_group (set_member M A new)) B = .ok (some bval) ∧
    (∀ t, t ≠ A → lookupTag t (set_member M A new) = lookupTag t M) := by
  obtain ⟨aval, hA⟩ := hA
  have hAlt : A < 4294967296 :=
    (hwf.2 (A, aval) (lookupTag_some_mem A aval M hA)).1
  have hwf2 : WellFormedMap (set_member M A new) :=
    set_member_wf M A new hwf hAlt hnl hnb
  have hne : (set_member M A new).isEmpty ≠ true := by
    intro hc
    exact set_member_ne_nil M A new (List.isEmpty_iff.mp hc)
  have hcommit : commit_group (set_member M A new) = some (encode (set_member M A new)) := by
    rw [commit_group, if_neg hne]
  have hget : ∀ t, get_member_stored (commit_group (set_member M A new)) t
      = .ok (lookupTag t (set_member M A new)) := by
    intro t
    rw [hcommit, get_member_stored, decode_encode_eq (set_member M A new) hwf2]
  refine ⟨?_, ?_, ?_⟩
  · rw [hget A, lookupTag_set_member_self]
  · rw [hget B, lookupTag_set_member_other M A B new hBA, hB]
  · intro t hta
    exact lookupTag_set_member_other M A t new hta

/-- Witness for C7 on a concrete two-member group. -/
theorem member_isolation_witness :
    get_member_stored (commit_group (set_member [(1, [10]), (2, [20])] 1 [99])) 1
      = .ok (some [99]) ∧
    get_member_stored (commit_group (set_member [(1, [10]), (2, [20])] 1 [99])) 2
      = .ok (some [20]) ∧
    (∀ t, t ≠ 1 → lookupTag t (set_member [(1, [10]), (2, [20])] 1 [99])
      = lookupTag t [(1, [10]), (2, [20])]) :=
  member_isolation [(1, [10]), (2, [20])] 1 2 [20] [99]
    (by decide) (by decide) ⟨[10], by decide⟩ (by decide) (by decide) (by decide)

/-- Counterexample to C9 as stated: two transactions that blindly write the
same `(GroupKey, MemberTag)` pair — with empty read-sets and no whole-group
reads — do NOT conflict under the §4.4 validation rule, which only tests
write-against-read and write-against-whole-group-read intersections. -/
theorem conflict_write_write_counterexample :
    ((0, 0) : GroupKey × MemberTag) ∈ (TxnAccess.mk [] [(0, 0)] []).member_writes ∧
    ((0, 0) : GroupKey × MemberTag) ∈ (TxnAccess.mk [] [(0, 0)] []).member_writes ∧
    conflict (TxnAccess.mk [] [(0, 0)] []) (TxnAccess.mk [] [(0, 0)] []) = false := by
  decide

/-- C9 (amended): under the §4.4 validation rule, two transactions with no
whole-group reads, whose member reads are covered by their own writes, and
whose member write-sets touch disjoint `(GroupKey, MemberTag)` pairs, do not
conflict; and a transaction writing a pair that the other reads does
conflict.  (Write-write overlap alone is not flagged by the rule — see the
counterexample.) -/
theorem conflict_member_granularity (t1 t2 : TxnAccess) :
    ((t1.group_reads = [] → t2.group_reads = [] →
      (∀ p ∈ t1.member_reads, p ∈ t1.member_writes) →
      (∀ p ∈ t2.member_reads, p ∈ t2.member_writes) →
      (∀ p ∈ t1.member_writes, p ∉ t2.member_writes) →
      conflict t1 t2 = false) ∧
     (∀ p, p ∈ t1.member_writes → p ∈ t2.member_reads → conflict t1 t2 = true)) := by
  constructor
  · intro hg1 hg2 hr1 hr2 hdisj
    rw [conflict, hg1, hg2]
    simp only [List.any_nil, Bool.or_false]
    rw [Bool.or_eq_false_iff]
    constructor
    · rw [List.any_eq_false]
      intro p hp
      intro hd
      exact hdisj p hp (hr2 p (of_decide_eq_true hd))
    · rw [List.any_eq_false]
      intro p hp
      intro hd
      exact hdisj p (hr1 p (of_decide_eq_true hd)) hp
  · intro p hpw hpr
    rw [conflict]
    have h1 : t1.member_writes.any (fun p => decide (p ∈ t2.member_reads)) = true :=
      List.any_eq_true.mpr ⟨p, hpw, decide_eq_true hpr⟩
    rw [h1]
    rfl

/-- Witness for C9 (amended): disjoint blind writers of the same group do
not conflict; a write overlapping the other transaction's read conflicts. -/
theorem conflict_member_granularity_witness :
    conflict (TxnAccess.mk [] [(0, 0)] []) (TxnAccess.mk [] [(0, 1)] []) = false ∧
    conflict (TxnAccess.mk [] [(0, 2)] []) (TxnAccess.mk [(0, 2)] [] []) = true :=
  ⟨(conflict_member_granularity (TxnAccess.mk [] [(0, 0)] [])
      (TxnAccess.mk [] [(0, 1)] [])).1 rfl rfl (by decide) (by decide) (by decide),
   (conflict_member_granularity (TxnAccess.mk [] [(0, 2)] [])
      (TxnAccess.mk [(0, 2)] [] [])).2 (0, 2) (by decide) (by decide)⟩

